import Mathlib

/-!
Shallow embedding of the nexcache LRU+TTL cache engine
(`src/lrucache/lru_cache.go` and the hCache variant under `src/pkg/lrucache`,
which additionally provides `Delete`).

Modelling conventions:
* Timestamps are `Nat`; Go's `time.Now().After(t)` is the strict comparison
  `t < now` and `time.Now().Before(t)` is `now < t`.  Each operation takes the
  clock reading `now` as an explicit argument.
* The opaque `interface\x7b\x7d` payload is a type parameter `α`.
* The engine state is the capacity / ttl configuration plus the recency
  ordering (front of the Go `container/list` = head of the Lean list).
  Every Go operation keeps the index map and the list in sync, so the map is
  represented implicitly: a map lookup is `List.find?` over the ordering,
  which agrees with the Go map under the unique-keys invariant `keysNodup`.
* Go's `capacity` is a plain `int` that is never validated, so it is an `Int`.
* Locking and goroutine scheduling are outside the model: each public
  operation is one atomic state transition, matching the single exclusive
  mutex in the source.
-/

namespace NexCache

/-- `CacheEntry` stores key, value, and expiry time (Go: `Key`, `Value`,
`ExpiresAt`). -/
structure CacheEntry (α : Type) where
  key : String
  value : α
  expiresAt : Nat
deriving DecidableEq, Repr

/-- `LRUCache` is the main structure: capacity, ttl and the recency ordering
(front = most recently used, back = eviction candidate). -/
structure LRUCache (α : Type) where
  capacity : Int
  ttl : Nat
  ordering : List (CacheEntry α)
deriving DecidableEq, Repr

variable {α : Type}

/-- Predicate used for the index lookup of a key. -/
def keyMatches (k : String) (e : CacheEntry α) : Bool :=
  e.key == k

/-- Index lookup: Go's `c.cache[key]`.  Under `keysNodup` there is at most one
matching entry, so `find?` over the ordering is exactly the map lookup. -/
def lookupEntry (k : String) (s : LRUCache α) : Option (CacheEntry α) :=
  s.ordering.find? (keyMatches k)

/-- Go `removeElement` applied to the element the index maps `k` to: delete
from the map and unlink from the list.  `eraseP` removes that one element. -/
def removeKey (k : String) (l : List (CacheEntry α)) : List (CacheEntry α) :=
  l.eraseP (keyMatches k)

/-- Go `New` / `NewLRUCache`: empty index and ordering; the reaper goroutine
is modelled separately as the `cleanupExpiredEntries` transition. -/
def LRUCache.new (capacity : Int) (ttl : Nat) : LRUCache α :=
  ⟨capacity, ttl, []⟩

/-- Go `Get`: miss on absent key; lazily remove and miss when
`now.After(expiresAt)`; otherwise move to front and hit. -/
def get (now : Nat) (k : String) (s : LRUCache α) : Option α × LRUCache α :=
  match s.ordering.find? (keyMatches k) with
  | none => (none, s)
  | some e =>
    if e.expiresAt < now then
      (none, { s with ordering := removeKey k s.ordering })
    else
      (some e.value, { s with ordering := e :: removeKey k s.ordering })

/-- Go `ejectOldest` / `evictOldest`: remove the back element when the list is
nonempty; `dropLast` is exactly that (and the identity on `[]`). -/
def ejectOldest (l : List (CacheEntry α)) : List (CacheEntry α) :=
  l.dropLast

/-- Go `Set`: overwrite in place (value and expiry) and move to front when the
key is present — with no expiry check; otherwise evict the back element when
`list.Len() >= capacity`, then push the fresh entry to the front and register
it in the index. -/
def set (now : Nat) (k : String) (v : α) (s : LRUCache α) : LRUCache α :=
  match s.ordering.find? (keyMatches k) with
  | some e =>
    { s with ordering :=
        { e with value := v, expiresAt := now + s.ttl } :: removeKey k s.ordering }
  | none =>
    let l := if s.capacity ≤ (s.ordering.length : Int) then ejectOldest s.ordering
             else s.ordering
    { s with ordering := ⟨k, v, now + s.ttl⟩ :: l }

/-- Go `Delete` (hCache variant): remove a present key and return its value
with `true`; return `false` on an absent key.  Note: the Go code performs no
expiry check here. -/
def delete (k : String) (s : LRUCache α) : Option α × LRUCache α :=
  match s.ordering.find? (keyMatches k) with
  | none => (none, s)
  | some e => (some e.value, { s with ordering := removeKey k s.ordering })

/-- The phase of `GetOrLoad` that runs under the lock: hit on a live entry
(moving it to front), otherwise remove a discovered expired entry and report a
miss. -/
def lockedProbe (now : Nat) (k : String) (s : LRUCache α) :
    Option α × LRUCache α :=
  match s.ordering.find? (keyMatches k) with
  | some e =>
    if e.expiresAt < now then
      (none, { s with ordering := removeKey k s.ordering })
    else
      (some e.value, { s with ordering := e :: removeKey k s.ordering })
  | none => (none, s)

/-- Go `GetOrLoad`.  The loader is a zero-argument producer of either a value
or an error; it is modelled by its result.  Result pairs mirror Go's
`(interface\x7b\x7d, error)`: `(some v, none)` is a successful value,
`(none, some err)` a propagated loader error. -/
def getOrLoad (now : Nat) (k : String) (loader : Except String α)
    (s : LRUCache α) : (Option α × Option String) × LRUCache α :=
  match lockedProbe now k s with
  | (some v, s1) => ((some v, none), s1)
  | (none, s1) =>
    match loader with
    | .error err => ((none, some err), s1)
    | .ok v => ((some v, none), set now k v s1)

/-- Go `GetOrLoadWithFallback`: like `getOrLoad` but a loader error returns
the caller-supplied fallback value alongside the error, still storing
nothing. -/
def getOrLoadWithFallback (now : Nat) (k : String) (loader : Except String α)
    (fallback : α) (s : LRUCache α) : (Option α × Option String) × LRUCache α :=
  match lockedProbe now k s with
  | (some v, s1) => ((some v, none), s1)
  | (none, s1) =>
    match loader with
    | .error err => ((some fallback, some err), s1)
    | .ok v => ((some v, none), set now k v s1)

/-- Go `SaveToFile`: iterate the ordering front-to-back collecting the entry
records, which are then encoded.  The encoding/file transport is outside the
model; the snapshot is the collected list. -/
def saveToFile (s : LRUCache α) : List (CacheEntry α) :=
  s.ordering

/-- The `LoadFromFile` restore loop: range over decoded tuples in file order,
push-front each tuple whose expiry is still in the future
(`time.Now().Before(expiresAt)`). -/
def restoreEntries (now : Nat) (entries : List (CacheEntry α))
    (acc : List (CacheEntry α)) : List (CacheEntry α) :=
  match entries with
  | [] => acc
  | e :: rest =>
    restoreEntries now rest (if now < e.expiresAt then e :: acc else acc)

/-- Go `LoadFromFile`.  The file read/decode is modelled by its result
`decoded`.  On a decode error the error is returned and the state untouched;
on success the index and ordering are rebuilt from scratch from the decoded
tuples. -/
def loadFromFile (decoded : Except String (List (CacheEntry α))) (now : Nat)
    (s : LRUCache α) : Option String × LRUCache α :=
  match decoded with
  | .error err => (some err, s)
  | .ok entries => (none, { s with ordering := restoreEntries now entries [] })

/-- One reaper pass, `cleanupExpiredEntries`, as the scan over the list taken
back-to-front (the argument is the ordering reversed): examine every node,
remove it when `now.After(expiresAt)`, and continue from the pointer captured
before removal. -/
def cleanupScan (now : Nat) : List (CacheEntry α) → List (CacheEntry α)
  | [] => []
  | e :: rest =>
    if e.expiresAt < now then cleanupScan now rest
    else e :: cleanupScan now rest

/-- Go `cleanupExpiredEntries`: run the back-to-front scan over the ordering.
Reversing, scanning, and reversing back presents the nodes to `cleanupScan`
in exactly the back-to-front order the Go loop visits them. -/
def cleanupExpiredEntries (now : Nat) (s : LRUCache α) : LRUCache α :=
  { s with ordering := (cleanupScan now s.ordering.reverse).reverse }

/-- The operations of the engine that mutate state, for reasoning about
arbitrary operation sequences (the reaper tick is `cleanOp`). -/
inductive Op (α : Type) where
  | setOp (now : Nat) (k : String) (v : α)
  | getOp (now : Nat) (k : String)
  | delOp (k : String)
  | loadOp (now : Nat) (k : String) (loader : Except String α)
  | cleanOp (now : Nat)

/-- Apply one operation to the state, discarding the returned value. -/
def applyOp (s : LRUCache α) : Op α → LRUCache α
  | .setOp now k v => set now k v s
  | .getOp now k => (get now k s).2
  | .delOp k => (delete k s).2
  | .loadOp now k loader => (getOrLoad now k loader s).2
  | .cleanOp now => cleanupExpiredEntries now s

/-- Apply a sequence of operations in order. -/
def applyOps (s : LRUCache α) (ops : List (Op α)) : LRUCache α :=
  ops.foldl applyOp s

/-- The keys currently registered, in recency order. -/
def keys (s : LRUCache α) : List String :=
  s.ordering.map CacheEntry.key

/-- The index/ordering synchronisation invariant: every key occurs at most
once in the ordering, so the Go map (one handle per key) and the list hold
exactly the same population. -/
def keysNodup (s : LRUCache α) : Prop :=
  (s.ordering.map CacheEntry.key).Nodup

instance (s : LRUCache α) : Decidable (keysNodup s) := by
  unfold keysNodup; infer_instance

/-- Size of the index: the number of distinct keys in the ordering (the Go
map has one entry per distinct key). -/
def indexSize (s : LRUCache α) : Nat :=
  (s.ordering.map CacheEntry.key).dedup.length

/-- The index/ordering synchronisation invariant together with the capacity
bound, as one predicate on states. -/
def Inv (s : LRUCache α) : Prop :=
  keysNodup s ∧ (s.ordering.length : Int) ≤ s.capacity

theorem keyMatches_iff {k : String} {e : CacheEntry α} :
    keyMatches k e = true ↔ e.key = k := by
  simp [keyMatches]

theorem removeKey_sublist (k : String) (l : List (CacheEntry α)) :
    (removeKey k l).Sublist l :=
  List.eraseP_sublist l

theorem keys_nodup_of_sublist {l₁ l₂ : List (CacheEntry α)}
    (hs : l₁.Sublist l₂) (h : (l₂.map CacheEntry.key).Nodup) :
    (l₁.map CacheEntry.key).Nodup :=
  ((hs.map CacheEntry.key).nodup h)

theorem removeKey_eq_filter {k : String} {l : List (CacheEntry α)}
    (h : (l.map CacheEntry.key).Nodup) :
    removeKey k l = l.filter (fun e => !(keyMatches k e)) := by
  induction l with
  | nil => rfl
  | cons e rest ih =>
    simp only [List.map_cons, List.nodup_cons, List.mem_map] at h
    by_cases hk : keyMatches k e
    · have hek : e.key = k := keyMatches_iff.mp hk
      have hrest : rest.filter (fun x => !(keyMatches k x)) = rest := by
        apply List.filter_eq_self.mpr
        intro x hx
        have : x.key ≠ k := by
          intro hxk
          exact h.1 ⟨x, hx, hxk.trans hek.symm⟩
        simp [keyMatches, this]
      simp [removeKey, List.eraseP_cons, hk, List.filter_cons, hrest]
    · simp only [removeKey, List.eraseP_cons, hk, List.filter_cons, cond_false,
        Bool.not_eq_true', Bool.not_true, eq_self_iff_true]
      have := ih h.2
      simp_all [removeKey, keyMatches]

theorem mem_filter_not_match {k : String} {l : List (CacheEntry α)}
    {e : CacheEntry α} (h : e ∈ l.filter (fun x => !(keyMatches k x))) :
    e.key ≠ k := by
  have := (List.mem_filter.mp h).2
  simpa [keyMatches] using this

theorem find?_of_mem_nodup {k : String} {l : List (CacheEntry α)}
    {e : CacheEntry α} (h : (l.map CacheEntry.key).Nodup) (hm : e ∈ l)
    (hk : e.key = k) : l.find? (keyMatches k) = some e := by
  induction l with
  | nil => cases hm
  | cons a rest ih =>
    simp only [List.map_cons, List.nodup_cons, List.mem_map] at h
    rcases List.mem_cons.mp hm with rfl | hm'
    · simp [List.find?_cons, keyMatches, hk]
    · have hak : a.key ≠ k := by
        intro hakk
        exact h.1 ⟨e, hm', hk.trans hakk.symm⟩
      have : keyMatches k a = false := by simp [keyMatches, hak]
      simp only [List.find?_cons, this]
      exact ih h.2 hm'

theorem length_removeKey_of_found {k : String} {l : List (CacheEntry α)}
    {e : CacheEntry α} (hf : l.find? (keyMatches k) = some e) :
    (removeKey k l).length = l.length - 1 ∧ 1 ≤ l.length := by
  have hm := List.mem_of_find?_eq_some hf
  have hp := List.find?_some hf
  refine ⟨List.length_eraseP_of_mem hm hp, ?_⟩
  exact List.length_pos.mpr (List.ne_nil_of_mem hm)

theorem key_injective_of_nodup {l : List (CacheEntry α)}
    (h : (l.map CacheEntry.key).Nodup) {x y : CacheEntry α}
    (hx : x ∈ l) (hy : y ∈ l) (hk : x.key = y.key) : x = y :=
  List.inj_on_of_nodup_map h hx hy hk

theorem restoreEntries_spec (now : Nat) (entries acc : List (CacheEntry α)) :
    restoreEntries now entries acc =
      (entries.filter (fun e => decide (now < e.expiresAt))).reverse ++ acc := by
  induction entries generalizing acc with
  | nil => simp [restoreEntries]
  | cons e rest ih =>
    by_cases hl : now < e.expiresAt
    · simp [restoreEntries, hl, List.filter_cons, ih]
    · simp [restoreEntries, hl, List.filter_cons, ih]

theorem cleanupScan_eq_filter (now : Nat) (l : List (CacheEntry α)) :
    cleanupScan now l = l.filter (fun e => !decide (e.expiresAt < now)) := by
  induction l with
  | nil => rfl
  | cons e rest ih =>
    by_cases hl : e.expiresAt < now
    · simp [cleanupScan, hl, List.filter_cons, ih]
    · simp [cleanupScan, hl, List.filter_cons, ih]

theorem cleanup_ordering_eq_filter (now : Nat) (s : LRUCache α) :
    (cleanupExpiredEntries now s).ordering =
      s.ordering.filter (fun e => !decide (e.expiresAt < now)) := by
  simp [cleanupExpiredEntries, cleanupScan_eq_filter, List.filter_reverse]

theorem indexSize_eq_length {s : LRUCache α} (h : keysNodup s) :
    indexSize s = s.ordering.length := by
  unfold indexSize
  unfold keysNodup at h
  rw [List.dedup_eq_self.mpr h, List.length_map]

theorem lockedProbe_eq_get (now : Nat) (k : String) (s : LRUCache α) :
    lockedProbe now k s = get now k s := by
  unfold lockedProbe get
  cases hf : s.ordering.find? (keyMatches k) <;> rfl

theorem get_config (now : Nat) (k : String) (s : LRUCache α) :
    (get now k s).2.capacity = s.capacity ∧ (get now k s).2.ttl = s.ttl := by
  unfold get
  cases hf : s.ordering.find? (keyMatches k) with
  | none => exact ⟨rfl, rfl⟩
  | some e =>
    by_cases hexp : e.expiresAt < now <;> simp [hexp]

theorem set_config (now : Nat) (k : String) (v : α) (s : LRUCache α) :
    (set now k v s).capacity = s.capacity ∧ (set now k v s).ttl = s.ttl := by
  unfold set
  cases hf : s.ordering.find? (keyMatches k) <;> exact ⟨rfl, rfl⟩

theorem inv_cons_removeKey (e' : CacheEntry α) {s : LRUCache α} {k : String}
    {e : CacheEntry α}
    (hnd : keysNodup s) (hf : s.ordering.find? (keyMatches k) = some e)
    (hk : e'.key = e.key) :
    ((e' :: removeKey k s.ordering).map CacheEntry.key).Nodup ∧
    (e' :: removeKey k s.ordering).length = s.ordering.length := by
  have hek : e.key = k := keyMatches_iff.mp (List.find?_some hf)
  have hfil := removeKey_eq_filter (k := k) (l := s.ordering) hnd
  constructor
  · rw [List.map_cons, List.nodup_cons]
    constructor
    · intro hmem
      rcases List.mem_map.mp hmem with ⟨x, hx, hxk⟩
      have hxne : x.key ≠ k := mem_filter_not_match (hfil ▸ hx)
      exact hxne (hxk.trans (hk.trans hek))
    · exact keys_nodup_of_sublist (removeKey_sublist k s.ordering) hnd
  · have hlen := length_removeKey_of_found hf
    simp only [List.length_cons, hlen.1]
    omega

theorem get_inv {s : LRUCache α} (now : Nat) (k : String) (h : Inv s) :
    Inv (get now k s).2 := by
  obtain ⟨hnd, hle⟩ := h
  unfold get
  cases hf : s.ordering.find? (keyMatches k) with
  | none => exact ⟨hnd, hle⟩
  | some e =>
    by_cases hexp : e.expiresAt < now
    · simp only [hexp, if_true]
      refine ⟨keys_nodup_of_sublist (removeKey_sublist k s.ordering) hnd, ?_⟩
      have hl := (removeKey_sublist k s.ordering).length_le
      exact le_trans (by exact_mod_cast hl) hle
    · simp only [hexp, if_false]
      have hm := inv_cons_removeKey e hnd hf rfl
      refine ⟨hm.1, ?_⟩
      show ((e :: removeKey k s.ordering).length : Int) ≤ s.capacity
      rw [hm.2]
      exact hle

theorem delete_inv {s : LRUCache α} (k : String) (h : Inv s) :
    Inv (delete k s).2 := by
  obtain ⟨hnd, hle⟩ := h
  unfold delete
  cases hf : s.ordering.find? (keyMatches k) with
  | none => exact ⟨hnd, hle⟩
  | some e =>
    refine ⟨keys_nodup_of_sublist (removeKey_sublist k s.ordering) hnd, ?_⟩
    have hl := (removeKey_sublist k s.ordering).length_le
    exact le_trans (by exact_mod_cast hl) hle

theorem set_inv {s : LRUCache α} (now : Nat) (k : String) (v : α)
    (hcap : 1 ≤ s.capacity) (h : Inv s) : Inv (set now k v s) := by
  obtain ⟨hnd, hle⟩ := h
  unfold set
  cases hf : s.ordering.find? (keyMatches k) with
  | some e =>
    have hm := inv_cons_removeKey
      { e with value := v, expiresAt := now + s.ttl } hnd hf rfl
    refine ⟨hm.1, ?_⟩
    show (({ e with value := v, expiresAt := now + s.ttl } ::
      removeKey k s.ordering).length : Int) ≤ s.capacity
    rw [hm.2]
    exact hle
  | none =>
    have hk_not : ∀ x ∈ s.ordering, x.key ≠ k := by
      intro x hx hxk
      have := List.find?_eq_none.mp hf x hx
      simp [keyMatches, hxk] at this
    by_cases hge : s.capacity ≤ (s.ordering.length : Int)
    · simp only [hge, if_true]
      refine ⟨?_, ?_⟩
      · show (((⟨k, v, now + s.ttl⟩ : CacheEntry α) ::
          ejectOldest s.ordering).map CacheEntry.key).Nodup
        rw [List.map_cons, List.nodup_cons]
        refine ⟨?_, keys_nodup_of_sublist (List.dropLast_sublist s.ordering) hnd⟩
        intro hmem
        rcases List.mem_map.mp hmem with ⟨x, hx, hxk⟩
        exact hk_not x ((List.dropLast_sublist s.ordering).mem hx) hxk
      · show ((((⟨k, v, now + s.ttl⟩ : CacheEntry α) ::
          ejectOldest s.ordering).length : Nat) : Int) ≤ s.capacity
        have h1 : (ejectOldest s.ordering).length = s.ordering.length - 1 :=
          List.length_dropLast s.ordering
        have h2 : 1 ≤ s.ordering.length := by
          by_contra hc
          have h0 : s.ordering.length = 0 := by omega
          rw [h0] at hge
          omega
        rw [List.length_cons, h1]
        have h3 : (s.ordering.length - 1 + 1 : Nat) = s.ordering.length := by omega
        rw [h3]
        exact hle
    · simp only [hge, if_false]
      refine ⟨?_, ?_⟩
      · show (((⟨k, v, now + s.ttl⟩ : CacheEntry α) ::
          s.ordering).map CacheEntry.key).Nodup
        rw [List.map_cons, List.nodup_cons]
        refine ⟨?_, hnd⟩
        intro hmem
        rcases List.mem_map.mp hmem with ⟨x, hx, hxk⟩
        exact hk_not x hx hxk
      · show ((((⟨k, v, now + s.ttl⟩ : CacheEntry α) ::
          s.ordering).length : Nat) : Int) ≤ s.capacity
        push_neg at hge
        rw [List.length_cons]
        push_cast
        omega

theorem cleanup_inv {s : LRUCache α} (now : Nat) (h : Inv s) :
    Inv (cleanupExpiredEntries now s) := by
  obtain ⟨hnd, hle⟩ := h
  have hsub : (cleanupExpiredEntries now s).ordering.Sublist s.ordering := by
    rw [cleanup_ordering_eq_filter]
    exact List.filter_sublist s.ordering
  refine ⟨keys_nodup_of_sublist hsub hnd, ?_⟩
  exact le_trans (by exact_mod_cast hsub.length_le) hle

theorem getOrLoad_inv {s : LRUCache α} (now : Nat) (k : String)
    (loader : Except String α) (hcap : 1 ≤ s.capacity) (h : Inv s) :
    Inv (getOrLoad now k loader s).2 := by
  unfold getOrLoad
  rw [lockedProbe_eq_get]
  have hinv1 : Inv (get now k s).2 := get_inv now k h
  have hcap1 : 1 ≤ (get now k s).2.capacity := by
    rw [(get_config now k s).1]; exact hcap
  rcases hg : get now k s with ⟨r, s1⟩
  rw [hg] at hinv1 hcap1
  cases r with
  | some v => exact hinv1
  | none =>
    cases loader with
    | error err => exact hinv1
    | ok v => exact set_inv now k v hcap1 hinv1

theorem applyOp_capacity (s : LRUCache α) (op : Op α) :
    (applyOp s op).capacity = s.capacity := by
  cases op with
  | setOp now k v => exact (set_config now k v s).1
  | getOp now k => exact (get_config now k s).1
  | delOp k =>
    show (delete k s).2.capacity = s.capacity
    unfold delete
    cases hf : s.ordering.find? (keyMatches k) <;> rfl
  | loadOp now k loader =>
    show (getOrLoad now k loader s).2.capacity = s.capacity
    unfold getOrLoad
    rw [lockedProbe_eq_get]
    rcases hg : get now k s with ⟨r, s1⟩
    have : s1.capacity = s.capacity := by
      have := (get_config now k s).1
      rw [hg] at this
      exact this
    cases r with
    | some v => exact this
    | none =>
      cases loader with
      | error err => exact this
      | ok v => exact ((set_config now k v s1).1).trans this
  | cleanOp now => rfl

theorem applyOp_inv {s : LRUCache α} (op : Op α) (hcap : 1 ≤ s.capacity)
    (h : Inv s) : Inv (applyOp s op) := by
  cases op with
  | setOp now k v => exact set_inv now k v hcap h
  | getOp now k => exact get_inv now k h
  | delOp k => exact delete_inv k h
  | loadOp now k loader => exact getOrLoad_inv now k loader hcap h
  | cleanOp now => exact cleanup_inv now h

theorem applyOps_inv {s : LRUCache α} (ops : List (Op α)) (hcap : 1 ≤ s.capacity)
    (h : Inv s) : Inv (applyOps s ops) := by
  induction ops generalizing s with
  | nil => exact h
  | cons op rest ih =>
    have hcap1 : 1 ≤ (applyOp s op).capacity := by
      rw [applyOp_capacity]; exact hcap
    exact ih hcap1 (applyOp_inv op hcap h)

theorem applyOps_capacity (s : LRUCache α) (ops : List (Op α)) :
    (applyOps s ops).capacity = s.capacity := by
  induction ops generalizing s with
  | nil => rfl
  | cons op rest ih => exact (ih (applyOp s op)).trans (applyOp_capacity s op)

/-- C1 counterexample: a cache holding the single entry ("a", 7, expiresAt 5)
queried at now = 5 — the current time is AT the entry's expiresAt.  The claim
demands not-found and removal, but `Get` returns the value as found and
leaves the state unchanged, because Go's `time.Now().After(expiresAt)` is the
strict comparison `expiresAt < now`. -/
theorem get_at_exact_expiry_counterexample :
    get 5 "a" (⟨2, 10, [⟨"a", 7, 5⟩]⟩ : LRUCache Nat) =
      (some 7, (⟨2, 10, [⟨"a", 7, 5⟩]⟩ : LRUCache Nat)) := by
  decide

/-- C1 (amended): for every cache state satisfying the index/ordering sync
invariant, if the key is absent `Get` returns not-found and the state is
unchanged; if the key is present and the current time is STRICTLY past its
expiresAt, `Get` removes the entry from both index and ordering (every other
entry is kept in order) and returns not-found; otherwise `Get` moves the
entry to the front of the ordering and returns its stored value with found.
Configuration (capacity, ttl) is never changed. -/
theorem get_characterisation (s : LRUCache α) (now : Nat) (k : String)
    (hnd : keysNodup s) :
    (lookupEntry k s = none → get now k s = (none, s)) ∧
    (∀ e, lookupEntry k s = some e → e.expiresAt < now →
      (get now k s).1 = none ∧
      lookupEntry k (get now k s).2 = none ∧
      (get now k s).2.ordering = s.ordering.filter (fun x => !(keyMatches k x)) ∧
      (get now k s).2.capacity = s.capacity ∧ (get now k s).2.ttl = s.ttl) ∧
    (∀ e, lookupEntry k s = some e → ¬ e.expiresAt < now →
      (get now k s).1 = some e.value ∧
      (get now k s).2.ordering =
        e :: s.ordering.filter (fun x => !(keyMatches k x)) ∧
      (get now k s).2.capacity = s.capacity ∧ (get now k s).2.ttl = s.ttl) := by
  have hfil := removeKey_eq_filter (k := k) (l := s.ordering) hnd
  have hnone : (s.ordering.filter (fun x => !(keyMatches k x))).find?
      (keyMatches k) = none := by
    apply List.find?_eq_none.mpr
    intro x hx
    have hxk := mem_filter_not_match hx
    simp [keyMatches, hxk]
  refine ⟨?_, ?_, ?_⟩
  · intro h
    unfold lookupEntry at h
    simp only [get, h]
  · intro e hf hexp
    unfold lookupEntry at hf
    simp only [get, hf]
    rw [if_pos hexp]
    refine ⟨rfl, ?_, ?_, rfl, rfl⟩
    · show (removeKey k s.ordering).find? (keyMatches k) = none
      rw [hfil]
      exact hnone
    · show removeKey k s.ordering = _
      exact hfil
  · intro e hf hexp
    unfold lookupEntry at hf
    simp only [get, hf]
    rw [if_neg hexp]
    refine ⟨rfl, ?_, rfl, rfl⟩
    show e :: removeKey k s.ordering = _
    rw [hfil]

/-- C1 witness: the amended characterisation applied to a concrete two-entry
cache, exercising the lazy-expiry branch (entry "a" expired at 5, read at 9). -/
theorem get_characterisation_witness :
    keysNodup (⟨3, 10, [⟨"a", 7, 5⟩, ⟨"b", 8, 20⟩]⟩ : LRUCache Nat) ∧
    (get 9 "a" (⟨3, 10, [⟨"a", 7, 5⟩, ⟨"b", 8, 20⟩]⟩ : LRUCache Nat)).1 = none ∧
    lookupEntry "a"
      (get 9 "a" (⟨3, 10, [⟨"a", 7, 5⟩, ⟨"b", 8, 20⟩]⟩ : LRUCache Nat)).2 = none :=
  have h := get_characterisation
    (⟨3, 10, [⟨"a", 7, 5⟩, ⟨"b", 8, 20⟩]⟩ : LRUCache Nat) 9 "a" (by decide)
  have h2 := h.2.1 ⟨"a", 7, 5⟩ (by decide) (by decide)
  ⟨by decide, h2.1, h2.2.1⟩

/-- C2: Set — if the key is already present (no expiry check is made), the
entry's value is replaced, its expiresAt reset to now + ttl, and it moves to
the front with every other entry kept in order and the total count unchanged;
if the key is new and the entry count is at least the capacity, the back-most
entry is dropped (`dropLast` — no expiry check on it) and the fresh entry is
pushed to the front and registered in the index; if the key is new and there
is room, the fresh entry is simply pushed to the front.  `set` is a total
function: it never fails. -/
theorem set_characterisation (s : LRUCache α) (now : Nat) (k : String)
    (v : α) (hnd : keysNodup s) :
    (∀ e, lookupEntry k s = some e →
      (set now k v s).ordering =
        { e with value := v, expiresAt := now + s.ttl } ::
          s.ordering.filter (fun x => !(keyMatches k x)) ∧
      lookupEntry k (set now k v s) =
        some { e with value := v, expiresAt := now + s.ttl } ∧
      (set now k v s).ordering.length = s.ordering.length) ∧
    (lookupEntry k s = none → s.capacity ≤ (s.ordering.length : Int) →
      (set now k v s).ordering = ⟨k, v, now + s.ttl⟩ :: s.ordering.dropLast ∧
      lookupEntry k (set now k v s) = some ⟨k, v, now + s.ttl⟩) ∧
    (lookupEntry k s = none → (s.ordering.length : Int) < s.capacity →
      (set now k v s).ordering = ⟨k, v, now + s.ttl⟩ :: s.ordering ∧
      lookupEntry k (set now k v s) = some ⟨k, v, now + s.ttl⟩) := by
  have hfil := removeKey_eq_filter (k := k) (l := s.ordering) hnd
  refine ⟨?_, ?_, ?_⟩
  · intro e hf
    unfold lookupEntry at hf
    have hek : e.key = k := keyMatches_iff.mp (List.find?_some hf)
    have hlen := inv_cons_removeKey
      { e with value := v, expiresAt := now + s.ttl } hnd hf rfl
    simp only [set, hf]
    refine ⟨?_, ?_, hlen.2⟩
    · show { e with value := v, expiresAt := now + s.ttl } ::
        removeKey k s.ordering = _
      rw [hfil]
    · show ({ e with value := v, expiresAt := now + s.ttl } ::
        removeKey k s.ordering).find? (keyMatches k) = _
      have hm : keyMatches k { e with value := v, expiresAt := now + s.ttl }
          = true := keyMatches_iff.mpr hek
      simp [List.find?_cons, hm]
  · intro hf hge
    unfold lookupEntry at hf
    simp only [set, hf]
    rw [if_pos hge]
    refine ⟨rfl, ?_⟩
    show ((⟨k, v, now + s.ttl⟩ : CacheEntry α) ::
      ejectOldest s.ordering).find? (keyMatches k) = _
    have hm : keyMatches k (⟨k, v, now + s.ttl⟩ : CacheEntry α) = true := by
      simp [keyMatches]
    simp [List.find?_cons, hm]
  · intro hf hlt
    unfold lookupEntry at hf
    simp only [set, hf]
    rw [if_neg (not_le.mpr hlt)]
    refine ⟨rfl, ?_⟩
    show ((⟨k, v, now + s.ttl⟩ : CacheEntry α) ::
      s.ordering).find? (keyMatches k) = _
    have hm : keyMatches k (⟨k, v, now + s.ttl⟩ : CacheEntry α) = true := by
      simp [keyMatches]
    simp [List.find?_cons, hm]

/-- C2 witness: overwriting the expired entry "a" (expiresAt 5) at now = 9 in
a full capacity-2 cache refreshes value and expiry to 9 + 10 = 19 and moves
it to the front; setting a new key into the full cache evicts the back-most
entry. -/
theorem set_characterisation_witness :
    keysNodup (⟨2, 10, [⟨"b", 8, 20⟩, ⟨"a", 7, 5⟩]⟩ : LRUCache Nat) ∧
    (set 9 "a" 99 (⟨2, 10, [⟨"b", 8, 20⟩, ⟨"a", 7, 5⟩]⟩ : LRUCache Nat)).ordering =
      [⟨"a", 99, 19⟩, ⟨"b", 8, 20⟩] ∧
    (set 9 "c" 3 (⟨2, 10, [⟨"b", 8, 20⟩, ⟨"a", 7, 5⟩]⟩ : LRUCache Nat)).ordering =
      [⟨"c", 3, 19⟩, ⟨"b", 8, 20⟩] :=
  have h := set_characterisation
    (⟨2, 10, [⟨"b", 8, 20⟩, ⟨"a", 7, 5⟩]⟩ : LRUCache Nat) 9 "a" 99 (by decide)
  have h2 := set_characterisation
    (⟨2, 10, [⟨"b", 8, 20⟩, ⟨"a", 7, 5⟩]⟩ : LRUCache Nat) 9 "c" 3 (by decide)
  have ha := h.1 ⟨"a", 7, 5⟩ (by decide)
  have hc := h2.2.1 (by decide) (by decide)
  ⟨by decide, by rw [ha.1]; decide, by rw [hc.1]; decide⟩

/-- C3: capacity invariant — starting from a freshly constructed engine with
positive capacity, after any sequence of complete operations (Set, Get,
Delete, GetOrLoad, reaper cleanup) the index size equals the ordering length
and that count is at most the capacity.  Since the theorem holds for every
operation list, it holds after each prefix, i.e. after each complete
operation of a run. -/
theorem capacity_invariant_sequences (cap : Int) (ttl : Nat)
    (hcap : 1 ≤ cap) (ops : List (Op α)) :
    indexSize (applyOps (LRUCache.new cap ttl) ops) =
      (applyOps (LRUCache.new cap ttl) ops).ordering.length ∧
    ((applyOps (LRUCache.new cap ttl) ops).ordering.length : Int) ≤ cap := by
  have h0 : Inv (LRUCache.new (α := α) cap ttl) := by
    refine ⟨?_, ?_⟩
    · show (([] : List (CacheEntry α)).map CacheEntry.key).Nodup
      simp
    · show (((0:Nat) : Int)) ≤ cap
      omega
  have h := applyOps_inv ops hcap h0
  have hc := applyOps_capacity (LRUCache.new (α := α) cap ttl) ops
  refine ⟨indexSize_eq_length h.1, ?_⟩
  have h2 := h.2
  rw [hc] at h2
  exact h2

/-- C3 witness: a concrete run on a capacity-2 engine mixing writes, reads, a
delete, a failed read-through load, and a reaper pass. -/
theorem capacity_invariant_sequences_witness :
    (1:Int) ≤ 2 ∧
    (indexSize (applyOps (LRUCache.new (α := Nat) 2 5)
        [Op.setOp 0 "a" 1, Op.setOp 1 "b" 2, Op.setOp 2 "c" 3, Op.getOp 3 "b",
         Op.delOp "b", Op.loadOp 4 "d" (Except.error "down"), Op.cleanOp 9]) =
      (applyOps (LRUCache.new (α := Nat) 2 5)
        [Op.setOp 0 "a" 1, Op.setOp 1 "b" 2, Op.setOp 2 "c" 3, Op.getOp 3 "b",
         Op.delOp "b", Op.loadOp 4 "d" (Except.error "down"), Op.cleanOp 9]).ordering.length ∧
    ((applyOps (LRUCache.new (α := Nat) 2 5)
        [Op.setOp 0 "a" 1, Op.setOp 1 "b" 2, Op.setOp 2 "c" 3, Op.getOp 3 "b",
         Op.delOp "b", Op.loadOp 4 "d" (Except.error "down"), Op.cleanOp 9]).ordering.length : Int) ≤ 2) :=
  ⟨by decide, capacity_invariant_sequences 2 5 (by decide)
    [Op.setOp 0 "a" 1, Op.setOp 1 "b" 2, Op.setOp 2 "c" 3, Op.getOp 3 "b",
     Op.delOp "b", Op.loadOp 4 "d" (Except.error "down"), Op.cleanOp 9]⟩

theorem getOrLoad_of_lookup_none {s : LRUCache α} {k : String}
    (h : lookupEntry k s = none) (now : Nat) (loader : Except String α) :
    getOrLoad now k loader s =
      match loader with
      | Except.error err => ((none, some err), s)
      | Except.ok v => ((some v, none), set now k v s) := by
  unfold lookupEntry at h
  simp only [getOrLoad, lockedProbe, h]

theorem getOrLoadWithFallback_of_lookup_none {s : LRUCache α} {k : String}
    (h : lookupEntry k s = none) (now : Nat) (loader : Except String α)
    (fb : α) :
    getOrLoadWithFallback now k loader fb s =
      match loader with
      | Except.error err => ((some fb, some err), s)
      | Except.ok v => ((some v, none), set now k v s) := by
  unfold lookupEntry at h
  simp only [getOrLoadWithFallback, lockedProbe, h]

/-- C4 (evaluation at the failing input): `Delete` performs no expiry check
at all — it does not even read the clock — so deleting the key "a" whose
entry expired at time 5, at any later wall-clock time (say now = 10 > 5),
returns the expired entry's value with found = true instead of the
claimed/documented not-found.  The code contradicts its own doc comment
("gibt nil zurück, falls nicht vorhanden oder abgelaufen"). -/
theorem delete_returns_expired_entry :
    delete "a" (⟨2, 10, [⟨"a", 7, 5⟩]⟩ : LRUCache Nat) =
      (some 7, (⟨2, 10, []⟩ : LRUCache Nat)) ∧ (5:Nat) < 10 := by
  decide

/-- C5: Delete — deleting a present key removes it from both index and
ordering (every other entry kept in order) and returns its stored value with
found; deleting an absent key returns not-found with the state unchanged; a
Get of the same key right after the delete misses at EVERY clock reading
(hence also before the entry would have expired), and deleting the key a
second time returns not-found. -/
theorem delete_characterisation (s : LRUCache α) (k : String)
    (hnd : keysNodup s) :
    (∀ e, lookupEntry k s = some e →
      delete k s = (some e.value,
        { s with ordering := s.ordering.filter (fun x => !(keyMatches k x)) }) ∧
      lookupEntry k (delete k s).2 = none ∧
      (∀ now, get now k (delete k s).2 = (none, (delete k s).2)) ∧
      delete k (delete k s).2 = (none, (delete k s).2)) ∧
    (lookupEntry k s = none → delete k s = (none, s)) := by
  have hrm : removeKey k s.ordering =
      s.ordering.filter (fun x => !(keyMatches k x)) :=
    removeKey_eq_filter hnd
  have hnone : (s.ordering.filter (fun x => !(keyMatches k x))).find?
      (keyMatches k) = none := by
    apply List.find?_eq_none.mpr
    intro x hx
    have hxk := mem_filter_not_match hx
    simp [keyMatches, hxk]
  refine ⟨?_, ?_⟩
  · intro e hf
    unfold lookupEntry at hf
    have h2 : ({ s with ordering := removeKey k s.ordering } :
        LRUCache α).ordering.find? (keyMatches k) = none := by
      show (removeKey k s.ordering).find? (keyMatches k) = none
      rw [hrm]
      exact hnone
    simp only [delete, hf]
    refine ⟨?_, ?_, ?_, ?_⟩
    · rw [hrm]
    · exact h2
    · intro now
      simp only [get, h2]
    · simp only [delete, h2]
  · intro hf
    unfold lookupEntry at hf
    simp only [delete, hf]

/-- C5 witness: deleting the live entry "a" from a two-entry cache returns
its value, a Get at a time well before its expiry misses, and a second delete
misses. -/
theorem delete_characterisation_witness :
    keysNodup (⟨3, 10, [⟨"a", 7, 15⟩, ⟨"b", 8, 20⟩]⟩ : LRUCache Nat) ∧
    delete "a" (⟨3, 10, [⟨"a", 7, 15⟩, ⟨"b", 8, 20⟩]⟩ : LRUCache Nat) =
      (some 7, (⟨3, 10, [⟨"b", 8, 20⟩]⟩ : LRUCache Nat)) ∧
    get 1 "a" (delete "a" (⟨3, 10, [⟨"a", 7, 15⟩, ⟨"b", 8, 20⟩]⟩ : LRUCache Nat)).2 =
      (none, (delete "a" (⟨3, 10, [⟨"a", 7, 15⟩, ⟨"b", 8, 20⟩]⟩ : LRUCache Nat)).2) ∧
    delete "a" (delete "a" (⟨3, 10, [⟨"a", 7, 15⟩, ⟨"b", 8, 20⟩]⟩ : LRUCache Nat)).2 =
      (none, (delete "a" (⟨3, 10, [⟨"a", 7, 15⟩, ⟨"b", 8, 20⟩]⟩ : LRUCache Nat)).2) :=
  have h := delete_characterisation
    (⟨3, 10, [⟨"a", 7, 15⟩, ⟨"b", 8, 20⟩]⟩ : LRUCache Nat) "a" (by decide)
  have h2 := h.1 ⟨"a", 7, 15⟩ (by decide)
  ⟨by decide, by rw [h2.1]; decide, h2.2.2.1 1, h2.2.2.2⟩

/-- C6 counterexample: key "a" is present but expired (expiresAt 5, call at
now = 10); the loader fails.  GetOrLoad propagates the error, but the cache
state is NOT left unchanged by the call: the expired entry has been removed
before the loader ran, so the resulting state differs from the initial one. -/
theorem getOrLoad_failure_mutates_state_counterexample :
    getOrLoad 10 "a" (Except.error "boom")
      (⟨2, 10, [⟨"a", 7, 5⟩]⟩ : LRUCache Nat) =
      ((none, some "boom"), (⟨2, 10, []⟩ : LRUCache Nat)) ∧
    (⟨2, 10, []⟩ : LRUCache Nat) ≠ (⟨2, 10, [⟨"a", 7, 5⟩]⟩ : LRUCache Nat) := by
  decide

/-- C6 (amended): when the loader fails, `GetOrLoad` propagates the error
verbatim (returning no value) and `GetOrLoadWithFallback` returns the
caller-supplied fallback together with the error; nothing is stored under the
key, and the cache state is unchanged EXCEPT that an already-expired entry
for that key, discovered during the lookup, has been removed (lazy expiry
happens before the loader runs).  The key is absent afterwards, so a
subsequent call consults the loader again: retrying with a succeeding loader
returns the freshly loaded value. -/
theorem loader_failure_characterisation (s : LRUCache α) (now now2 : Nat)
    (k : String) (err : String) (fb v : α) (hnd : keysNodup s) :
    (lookupEntry k s = none →
      getOrLoad now k (Except.error err) s = ((none, some err), s) ∧
      getOrLoadWithFallback now k (Except.error err) fb s =
        ((some fb, some err), s) ∧
      (getOrLoad now2 k (Except.ok v)
        (getOrLoad now k (Except.error err) s).2).1 = (some v, none)) ∧
    (∀ e, lookupEntry k s = some e → e.expiresAt < now →
      getOrLoad now k (Except.error err) s = ((none, some err),
        { s with ordering := s.ordering.filter (fun x => !(keyMatches k x)) }) ∧
      getOrLoadWithFallback now k (Except.error err) fb s =
        ((some fb, some err),
        { s with ordering := s.ordering.filter (fun x => !(keyMatches k x)) }) ∧
      lookupEntry k (getOrLoad now k (Except.error err) s).2 = none ∧
      (getOrLoad now2 k (Except.ok v)
        (getOrLoad now k (Except.error err) s).2).1 = (some v, none)) := by
  have hrm : removeKey k s.ordering =
      s.ordering.filter (fun x => !(keyMatches k x)) :=
    removeKey_eq_filter hnd
  have hnone : (s.ordering.filter (fun x => !(keyMatches k x))).find?
      (keyMatches k) = none := by
    apply List.find?_eq_none.mpr
    intro x hx
    have hxk := mem_filter_not_match hx
    simp [keyMatches, hxk]
  refine ⟨?_, ?_⟩
  · intro hf
    have h1 := getOrLoad_of_lookup_none hf now (Except.error err)
    have h2 := getOrLoadWithFallback_of_lookup_none hf now (Except.error err) fb
    refine ⟨h1, h2, ?_⟩
    have hstate : (getOrLoad now k (Except.error err) s).2 = s := by rw [h1]
    rw [hstate]
    rw [getOrLoad_of_lookup_none hf now2 (Except.ok v)]
  · intro e hf hexp
    unfold lookupEntry at hf
    have h1 : getOrLoad now k (Except.error err) s = ((none, some err),
        { s with ordering := removeKey k s.ordering }) := by
      simp only [getOrLoad, lockedProbe, hf]
      rw [if_pos hexp]
    have h2 : getOrLoadWithFallback now k (Except.error err) fb s =
        ((some fb, some err),
        { s with ordering := removeKey k s.ordering }) := by
      simp only [getOrLoadWithFallback, lockedProbe, hf]
      rw [if_pos hexp]
    have habsent : lookupEntry k ({ s with ordering := removeKey k s.ordering } :
        LRUCache α) = none := by
      show (removeKey k s.ordering).find? (keyMatches k) = none
      rw [hrm]
      exact hnone
    refine ⟨?_, ?_, ?_, ?_⟩
    · rw [h1, hrm]
    · rw [h2, hrm]
    · rw [h1]
      exact habsent
    · rw [h1]
      rw [getOrLoad_of_lookup_none habsent now2 (Except.ok v)]

/-- C6 witness: the amended characterisation applied to the concrete expired
entry ("a", 7, expiresAt 5) at now = 10 with a failing loader, and a retry at
now = 11 with a succeeding loader. -/
theorem loader_failure_characterisation_witness :
    keysNodup (⟨2, 10, [⟨"a", 7, 5⟩]⟩ : LRUCache Nat) ∧
    getOrLoad 10 "a" (Except.error "boom")
      (⟨2, 10, [⟨"a", 7, 5⟩]⟩ : LRUCache Nat) =
      ((none, some "boom"), (⟨2, 10, []⟩ : LRUCache Nat)) ∧
    getOrLoadWithFallback 10 "a" (Except.error "boom") 42
      (⟨2, 10, [⟨"a", 7, 5⟩]⟩ : LRUCache Nat) =
      ((some 42, some "boom"), (⟨2, 10, []⟩ : LRUCache Nat)) ∧
    (getOrLoad 11 "a" (Except.ok 9)
      (getOrLoad 10 "a" (Except.error "boom")
        (⟨2, 10, [⟨"a", 7, 5⟩]⟩ : LRUCache Nat)).2).1 = (some 9, none) :=
  have h := loader_failure_characterisation
    (⟨2, 10, [⟨"a", 7, 5⟩]⟩ : LRUCache Nat) 10 11 "a" "boom" 42 9 (by decide)
  have h2 := h.2 ⟨"a", 7, 5⟩ (by decide) (by decide)
  ⟨by decide, by rw [h2.1]; decide, by rw [h2.2.1]; decide, h2.2.2.2⟩

/-- C7: LoadFromFile is decode-then-replace.  If the open/decode fails, the
error is returned and the engine's index and ordering are exactly as before
(the state component is returned untouched — never a partial replace).  On
success the prior content is discarded unconditionally (the resulting
ordering depends only on the decoded tuples and the clock, not on the prior
state) and the cache holds exactly the decoded tuples whose expiresAt is
still in the future at load time, in push-front file order — so when the
first tuple of the file is still live it ends up back-most
(least-recently-used). -/
theorem loadFromFile_characterisation (s : LRUCache α) (now : Nat)
    (entries : List (CacheEntry α)) (err : String) :
    loadFromFile (Except.error err) now s = (some err, s) ∧
    (loadFromFile (Except.ok entries) now s).1 = none ∧
    (loadFromFile (Except.ok entries) now s).2.ordering =
      (entries.filter (fun e => decide (now < e.expiresAt))).reverse ∧
    (loadFromFile (Except.ok entries) now s).2.capacity = s.capacity ∧
    (loadFromFile (Except.ok entries) now s).2.ttl = s.ttl ∧
    (∀ e0 rest, entries = e0 :: rest → now < e0.expiresAt →
      (loadFromFile (Except.ok entries) now s).2.ordering.getLast? = some e0) := by
  have hord : (loadFromFile (Except.ok entries) now s).2.ordering =
      (entries.filter (fun e => decide (now < e.expiresAt))).reverse := by
    show restoreEntries now entries [] = _
    rw [restoreEntries_spec]
    simp
  refine ⟨rfl, rfl, hord, rfl, rfl, ?_⟩
  intro e0 rest hent hlive
  rw [hord, hent, List.filter_cons]
  simp only [hlive, decide_true_eq_true, if_true]
  rw [List.getLast?_reverse]
  rfl

/-- C7 witness: decoding fails — the prior two-entry state is returned
untouched; decoding succeeds on a three-tuple file whose middle tuple is
already expired at load time (now = 10) — the rebuilt ordering holds exactly
the two live tuples, reversed, and the first (live) tuple of the file is
back-most. -/
theorem loadFromFile_characterisation_witness :
    loadFromFile (Except.error "bad") 10
        (⟨5, 9, [⟨"p", 4, 12⟩, ⟨"q", 5, 14⟩]⟩ : LRUCache Nat) =
      (some "bad", (⟨5, 9, [⟨"p", 4, 12⟩, ⟨"q", 5, 14⟩]⟩ : LRUCache Nat)) ∧
    (loadFromFile (Except.ok [⟨"x", 1, 20⟩, ⟨"y", 2, 3⟩, ⟨"z", 3, 30⟩]) 10
        (⟨5, 9, [⟨"p", 4, 12⟩, ⟨"q", 5, 14⟩]⟩ : LRUCache Nat)).2.ordering =
      ([⟨"x", 1, 20⟩, ⟨"y", 2, 3⟩, ⟨"z", 3, 30⟩].filter
        (fun e => decide (10 < e.expiresAt))).reverse ∧
    (loadFromFile (Except.ok [⟨"x", 1, 20⟩, ⟨"y", 2, 3⟩, ⟨"z", 3, 30⟩]) 10
        (⟨5, 9, [⟨"p", 4, 12⟩, ⟨"q", 5, 14⟩]⟩ : LRUCache Nat)).2.ordering.getLast? =
      some ⟨"x", 1, 20⟩ :=
  have h := loadFromFile_characterisation
    (⟨5, 9, [⟨"p", 4, 12⟩, ⟨"q", 5, 14⟩]⟩ : LRUCache Nat) 10
    [⟨"x", 1, 20⟩, ⟨"y", 2, 3⟩, ⟨"z", 3, 30⟩] "bad"
  ⟨h.1, h.2.2.1, h.2.2.2.2.2 ⟨"x", 1, 20⟩ [⟨"y", 2, 3⟩, ⟨"z", 3, 30⟩] rfl
    (by decide)⟩

/-- C8: one reaper pass visits every node of the ordering from back to front
(the scan does not stop at the first unexpired entry): the resulting ordering
is exactly the original with EVERY expired entry (expiresAt strictly before
the pass's clock reading) removed, every unexpired entry still present, and
the relative order of the survivors unchanged (the result is a sublist of the
original ordering).  The engine configuration is untouched. -/
theorem cleanup_characterisation (s : LRUCache α) (now : Nat) :
    (cleanupExpiredEntries now s).ordering =
      s.ordering.filter (fun e => !decide (e.expiresAt < now)) ∧
    (cleanupExpiredEntries now s).ordering.Sublist s.ordering ∧
    (∀ e ∈ s.ordering, e.expiresAt < now →
      e ∉ (cleanupExpiredEntries now s).ordering) ∧
    (∀ e ∈ s.ordering, ¬ e.expiresAt < now →
      e ∈ (cleanupExpiredEntries now s).ordering) ∧
    (cleanupExpiredEntries now s).capacity = s.capacity ∧
    (cleanupExpiredEntries now s).ttl = s.ttl := by
  have h := cleanup_ordering_eq_filter now s
  refine ⟨h, ?_, ?_, ?_, rfl, rfl⟩
  · rw [h]
    exact List.filter_sublist s.ordering
  · intro e hm hexp hmem
    rw [h] at hmem
    have h2 := (List.mem_filter.mp hmem).2
    simp [hexp] at h2
  · intro e hm hexp
    rw [h]
    exact List.mem_filter.mpr ⟨hm, by simp [hexp]⟩

/-- C8 witness: a reaper pass at now = 10 over a three-entry ordering whose
back-most entry is live but whose middle entry is expired — the middle entry
is removed, both live entries survive in their relative order. -/
theorem cleanup_characterisation_witness :
    (cleanupExpiredEntries 10
        (⟨3, 9, [⟨"a", 1, 30⟩, ⟨"b", 2, 4⟩, ⟨"c", 3, 20⟩]⟩ : LRUCache Nat)).ordering =
      [⟨"a", 1, 30⟩, ⟨"b", 2, 4⟩, ⟨"c", 3, 20⟩].filter
        (fun e => !decide (e.expiresAt < 10)) ∧
    (⟨"b", 2, 4⟩ : CacheEntry Nat) ∉ (cleanupExpiredEntries 10
      (⟨3, 9, [⟨"a", 1, 30⟩, ⟨"b", 2, 4⟩, ⟨"c", 3, 20⟩]⟩ : LRUCache Nat)).ordering ∧
    (⟨"a", 1, 30⟩ : CacheEntry Nat) ∈ (cleanupExpiredEntries 10
      (⟨3, 9, [⟨"a", 1, 30⟩, ⟨"b", 2, 4⟩, ⟨"c", 3, 20⟩]⟩ : LRUCache Nat)).ordering :=
  have h := cleanup_characterisation
    (⟨3, 9, [⟨"a", 1, 30⟩, ⟨"b", 2, 4⟩, ⟨"c", 3, 20⟩]⟩ : LRUCache Nat) 10
  ⟨h.1, h.2.2.1 ⟨"b", 2, 4⟩ (by decide) (by decide),
    h.2.2.2.1 ⟨"a", 1, 30⟩ (by decide) (by decide)⟩

/-- C9: round-trip persistence — take any cache state with distinct keys,
save it, construct a fresh engine, and load the snapshot at time `now`.
Every saved entry still live at load time is found by a Get with exactly its
stored value; every saved entry whose expiry has passed by load time is
absent from the loaded engine. -/
theorem save_load_round_trip (s : LRUCache α) (cap : Int) (ttl : Nat)
    (now : Nat) (hnd : keysNodup s) :
    (∀ e ∈ s.ordering, now < e.expiresAt →
      (get now e.key (loadFromFile (Except.ok (saveToFile s)) now
        (LRUCache.new cap ttl)).2).1 = some e.value) ∧
    (∀ e ∈ s.ordering, e.expiresAt ≤ now →
      lookupEntry e.key (loadFromFile (Except.ok (saveToFile s)) now
        (LRUCache.new cap ttl)).2 = none) := by
  have hord : (loadFromFile (Except.ok (saveToFile s)) now
      (LRUCache.new (α := α) cap ttl)).2.ordering =
      (s.ordering.filter (fun e => decide (now < e.expiresAt))).reverse := by
    show restoreEntries now s.ordering [] = _
    rw [restoreEntries_spec]
    simp
  have hndL : (((s.ordering.filter
      (fun e => decide (now < e.expiresAt))).reverse).map CacheEntry.key).Nodup := by
    rw [List.map_reverse, List.nodup_reverse]
    exact keys_nodup_of_sublist (List.filter_sublist s.ordering) hnd
  refine ⟨?_, ?_⟩
  · intro e hm hlive
    have hmem : e ∈ (s.ordering.filter
        (fun e => decide (now < e.expiresAt))).reverse := by
      rw [List.mem_reverse]
      exact List.mem_filter.mpr ⟨hm, by simp [hlive]⟩
    have hfind : ((s.ordering.filter
        (fun e => decide (now < e.expiresAt))).reverse).find?
        (keyMatches e.key) = some e :=
      find?_of_mem_nodup hndL hmem rfl
    simp only [get, hord, hfind]
    rw [if_neg (Nat.lt_asymm hlive)]
  · intro e hm hexpired
    unfold lookupEntry
    rw [hord]
    apply List.find?_eq_none.mpr
    intro x hx hmatch
    have hxk : x.key = e.key := keyMatches_iff.mp hmatch
    have hx2 := List.mem_filter.mp (List.mem_reverse.mp hx)
    have hxlive : now < x.expiresAt := by simpa using hx2.2
    have hxe : x = e := key_injective_of_nodup hnd hx2.1 hm hxk
    rw [hxe] at hxlive
    omega

/-- C9 witness: a two-entry cache saved and re-loaded into a fresh engine at
now = 10; the live entry "a" reads back with its stored value, the entry "b"
that expired before the load is absent. -/
theorem save_load_round_trip_witness :
    keysNodup (⟨2, 10, [⟨"a", 7, 22⟩, ⟨"b", 8, 6⟩]⟩ : LRUCache Nat) ∧
    (get 10 "a" (loadFromFile
      (Except.ok (saveToFile (⟨2, 10, [⟨"a", 7, 22⟩, ⟨"b", 8, 6⟩]⟩ : LRUCache Nat)))
      10 (LRUCache.new 2 10)).2).1 = some 7 ∧
    lookupEntry "b" (loadFromFile
      (Except.ok (saveToFile (⟨2, 10, [⟨"a", 7, 22⟩, ⟨"b", 8, 6⟩]⟩ : LRUCache Nat)))
      10 (LRUCache.new 2 10)).2 = none :=
  have h := save_load_round_trip
    (⟨2, 10, [⟨"a", 7, 22⟩, ⟨"b", 8, 6⟩]⟩ : LRUCache Nat) 2 10 10 (by decide)
  ⟨by decide, h.1 ⟨"a", 7, 22⟩ (by decide) (by decide),
    h.2 ⟨"b", 8, 6⟩ (by decide) (by decide)⟩

/-- C10: non-positive capacity is neither rejected nor enforced.  With
`capacity ≤ 0`, a Set of a new key still inserts the entry (so the count
strictly exceeds the capacity right after the call — from the empty state the
count becomes exactly 1, because the eviction helper removes nothing from an
empty ordering), each such Set grows the count by at most one, and the count
afterwards is always strictly above the capacity — it is never reduced to
it. -/
theorem set_nonpositive_capacity (s : LRUCache α) (now : Nat) (k : String)
    (v : α) (hcap : s.capacity ≤ 0) (hnew : lookupEntry k s = none) :
    lookupEntry k (set now k v s) = some ⟨k, v, now + s.ttl⟩ ∧
    (set now k v s).ordering.length ≤ s.ordering.length + 1 ∧
    s.capacity < ((set now k v s).ordering.length : Int) ∧
    (s.ordering = [] → (set now k v s).ordering.length = 1) := by
  unfold lookupEntry at hnew
  have hge : s.capacity ≤ (s.ordering.length : Int) :=
    le_trans hcap (Int.natCast_nonneg s.ordering.length)
  have hdl : (ejectOldest s.ordering).length = s.ordering.length - 1 :=
    List.length_dropLast s.ordering
  simp only [set, hnew]
  rw [if_pos hge]
  refine ⟨?_, ?_, ?_, ?_⟩
  · show ((⟨k, v, now + s.ttl⟩ : CacheEntry α) ::
      ejectOldest s.ordering).find? (keyMatches k) = _
    have hm : keyMatches k (⟨k, v, now + s.ttl⟩ : CacheEntry α) = true := by
      simp [keyMatches]
    simp [List.find?_cons, hm]
  · rw [List.length_cons, hdl]
    omega
  · rw [List.length_cons, hdl]
    have h1 : 1 ≤ s.ordering.length - 1 + 1 := by omega
    have h2 : (1:Int) ≤ ((s.ordering.length - 1 + 1 : Nat) : Int) := by
      exact_mod_cast h1
    omega
  · intro h0
    rw [List.length_cons, hdl, h0]
    rfl

/-- C10 witness: a capacity-0 engine — Set of a new key into the empty state
inserts it, leaving one entry, which exceeds the capacity. -/
theorem set_nonpositive_capacity_witness :
    (⟨0, 10, []⟩ : LRUCache Nat).capacity ≤ 0 ∧
    lookupEntry "a" (⟨0, 10, []⟩ : LRUCache Nat) = none ∧
    lookupEntry "a" (set 3 "a" 1 (⟨0, 10, []⟩ : LRUCache Nat)) =
      some ⟨"a", 1, 13⟩ ∧
    (⟨0, 10, []⟩ : LRUCache Nat).capacity <
      ((set 3 "a" 1 (⟨0, 10, []⟩ : LRUCache Nat)).ordering.length : Int) ∧
    (set 3 "a" 1 (⟨0, 10, []⟩ : LRUCache Nat)).ordering.length = 1 :=
  have h := set_nonpositive_capacity (⟨0, 10, []⟩ : LRUCache Nat) 3 "a" 1
    (by decide) (by decide)
  ⟨by decide, by decide, h.1, h.2.2.1, h.2.2.2 rfl⟩

end NexCache
